import Mathlib

/-!
Verification of the LukiWiki-rs parser core against its specification.

The sanitizer (src/src/sanitizer.rs) is embedded as functions over
`List Char`, mirroring the Rust code which iterates over `str::chars()`.
The orchestrator (src/src/lib.rs) is embedded parametrically over its
external collaborators.  The plugin encoder/decoder and frontmatter
extractor, whose sources are not part of the repository snapshot, are
modelled from the specification where a claim needs them.
-/

namespace LukiWikiRs

/-- The fixed case-sensitive named-entity allow-list from
`is_valid_entity` in src/src/sanitizer.rs (the `matches!` arm list). -/
def namedEntities : List String :=
  ["nbsp", "lt", "gt", "amp", "quot", "apos", "copy", "reg", "trade",
   "ndash", "mdash", "lsquo", "rsquo", "ldquo", "rdquo", "hellip",
   "prime", "Prime", "euro", "yen", "pound", "cent", "times", "divide",
   "plusmn", "minus", "alpha", "beta", "gamma", "delta", "epsilon",
   "Alpha", "Beta", "Gamma", "Delta", "Epsilon"]

/-- Rust `char::is_ascii_hexdigit`. -/
def isAsciiHexDigit (c : Char) : Bool :=
  c.isDigit || ('a' ≤ c && c ≤ 'f') || ('A' ≤ c && c ≤ 'F')

/-- Embedding of `is_valid_entity` (src/src/sanitizer.rs, lines 94-157):
checks the collected entity body (without `&` and `;`).  Empty bodies are
rejected; `#`-bodies are numeric (decimal, or hex after `x`/`X`); all
other bodies are looked up in the named-entity allow-list.  Rust's
`entity.len()` counts bytes, but bodies reaching this function through
`is_html_entity` as embedded below are ASCII, where bytes and characters
coincide. -/
def is_valid_entity : List Char → Bool
  | [] => false
  | '#' :: rest =>
    match rest with
    | [] => false
    | c :: rest2 =>
      if c = 'x' ∨ c = 'X' then
        match rest2 with
        | [] => false
        | _ :: _ => rest2.all isAsciiHexDigit
      else rest.all Char.isDigit
  | l => namedEntities.contains (String.mk l)

/-- The character class admitted inside an entity body by the scanning
loop of `is_html_entity`: `ch.is_alphanumeric() || ch == '#' || ch == 'x'
|| ch == 'X'`.  Rust's `is_alphanumeric` is the Unicode property; it is
embedded here as ASCII `Char.isAlphanum`.  This does not change the
result of `is_html_entity` on any input: `is_valid_entity` only accepts
all-ASCII bodies (the allow-list is ASCII and the numeric branches
require ASCII digits/hex digits), so a candidate containing a non-ASCII
alphanumeric character is rejected either way - immediately here, or at
the `;` (or at the length cutoff) under the Unicode reading. -/
def entityChar (c : Char) : Bool :=
  c.isAlphanum || c = '#' || c = 'x' || c = 'X'

/-- The scanning loop of `is_html_entity` (src/src/sanitizer.rs, lines
68-91).  `acc` is the entity body collected so far, most recent
character first (Rust pushes onto a `String`; the length check
`entity.len() > 10` runs before each push, so `acc` is the pre-push
body).  Reaching the end of input without a `;` yields `false`. -/
def entityScan : List Char → List Char → Bool
  | _, [] => false
  | acc, c :: rest =>
    if c = ';' then is_valid_entity acc.reverse
    else if 10 < acc.length then false
    else if entityChar c then entityScan (c :: acc) rest
    else false

/-- Embedding of `is_html_entity` (src/src/sanitizer.rs): decides
whether the characters following an `&` begin a valid entity reference.
The Rust function receives a clone of the scan iterator positioned just
after the `&`, so `cs` is the character list after the `&`. -/
def is_html_entity (cs : List Char) : Bool := entityScan [] cs

/-- The main loop of `sanitize` (src/src/sanitizer.rs, lines 41-57):
`<` and `>` are replaced by their escapes; an `&` is kept exactly when
`is_html_entity` accepts its lookahead (which does not consume input, so
scanning resumes at the next character either way); every other
character is copied. -/
def sanitizeLoop : List Char → List Char
  | [] => []
  | c :: rest =>
    if c = '<' then "&lt;".data ++ sanitizeLoop rest
    else if c = '>' then "&gt;".data ++ sanitizeLoop rest
    else if c = '&' then
      if is_html_entity rest then '&' :: sanitizeLoop rest
      else "&amp;".data ++ sanitizeLoop rest
    else c :: sanitizeLoop rest

/-- Embedding of `sanitize` (src/src/sanitizer.rs, lines 32-60),
including the fast path: an input containing none of `<`, `>`, `&` is
returned unchanged (Rust returns `Cow::Borrowed`). -/
def sanitize (input : List Char) : List Char :=
  if input.contains '<' || input.contains '>' || input.contains '&' then
    sanitizeLoop input
  else input

/-- `sanitize` lifted to `String`, as used by the orchestrator. -/
def sanitize_str (s : String) : String := String.mk (sanitize s.data)

/-- The per-character image the specification describes for the
sanitizer (spec section 4.1): `<` and `>` map to their escapes
unconditionally; `&` maps to itself exactly when it begins a recognized
entity at that position, and to its escape otherwise; every other
character maps to itself.  `rest` is the character sequence after the
character being imaged. -/
def charImage (c : Char) (rest : List Char) : List Char :=
  if c = '<' then "&lt;".data
  else if c = '>' then "&gt;".data
  else if c = '&' then
    if is_html_entity rest then ['&'] else "&amp;".data
  else [c]

/-- The sanitizer as the specification words it: the left-to-right
concatenation of per-character images.  After a failed entity candidate
the recursion continues at the character immediately after the `&`, not
past the candidate. -/
def specSanitize : List Char → List Char
  | [] => []
  | c :: rest => charImage c rest ++ specSanitize rest

/-- `specSanitize` on a prefix whose lookahead continues into `suffix`;
used to state claims about an `&` at an arbitrary position. -/
def specSanitizeAux : List Char → List Char → List Char
  | [], _ => []
  | c :: rest, suffix => charImage c (rest ++ suffix) ++ specSanitizeAux rest suffix

/-- A character the sanitizer copies unchanged. -/
def plainChar (c : Char) : Bool :=
  !(c == '<' || c == '>' || c == '&')

/-- The conditions claim C2 places on the characters `rest` following an
`&` for the candidate to be malformed: no terminating `;` at all, a body
(the run before the first `;`) longer than the length bound, or a body
character outside ASCII alphanumeric plus `#`/`x`/`X`.  The bound here
is the one the code actually enforces: bodies of 12 or more characters
are rejected (the spec claims 11 or more). -/
def badCandidate (rest : List Char) : Prop :=
  (¬ ';' ∈ rest) ∨ 11 < (rest.takeWhile (· ≠ ';')).length ∨
    (∃ c ∈ rest.takeWhile (· ≠ ';'), entityChar c = false)

/-- Whether `pat` is a prefix of the second list. -/
def listStartsWith : List Char → List Char → Bool
  | [], _ => true
  | _ :: _, [] => false
  | p :: ps, c :: cs => p == c && listStartsWith ps cs

/-- Whether `pat` occurs as a contiguous substring. -/
def containsSub (pat : List Char) : List Char → Bool
  | [] => listStartsWith pat []
  | c :: rest => listStartsWith pat (c :: rest) || containsSub pat rest

/-- Frontmatter data: the optional key-value mapping of the external
frontmatter collaborator (spec section 3). -/
structure Frontmatter where
  entries : List (String × String)
deriving DecidableEq

/-- Embedding of `ParseResult` (src/src/lib.rs, lines 50-55). -/
structure ParseResult where
  html : String
  frontmatter : Option Frontmatter
deriving DecidableEq

/-- The external collaborators `parse_with_frontmatter` calls
(src/src/lib.rs): frontmatter extraction, the conflict-resolving
encoder, the comrak-based CommonMark renderer (with its fixed default
options absorbed), and the LukiWiki post-processing that substitutes the
plugin tokens.  Their bodies live outside the repository snapshot, so
the orchestrator is embedded parametrically over them; the claims about
the orchestrator hold for every instantiation. -/
structure Pipeline where
  extract_frontmatter : String → Option Frontmatter × String
  preprocess_conflicts : String → String
  parse_to_html : String → String
  apply_lukiwiki_syntax : String → String

/-- Embedding of `parse_with_frontmatter` (src/src/lib.rs, lines
106-127): extract frontmatter, preprocess conflicts on the body,
sanitize, render, apply the LukiWiki post-processing, and assemble the
result. -/
def parse_with_frontmatter (P : Pipeline) (input : String) : ParseResult :=
  let fm := P.extract_frontmatter input
  let preprocessed := P.preprocess_conflicts fm.2
  let sanitized := sanitize_str preprocessed
  let html := P.parse_to_html sanitized
  let final_html := P.apply_lukiwiki_syntax html
  { html := final_html, frontmatter := fm.1 }

/-- Embedding of `parse` (src/src/lib.rs, lines 79-82). -/
def parse (P : Pipeline) (input : String) : String :=
  (parse_with_frontmatter P input).html

namespace Model

/-- Modelled from the spec: the closed tagged variant for plugin
invocation kinds (spec sections 3 and 9, grammar dispatch). -/
inductive PluginKind where
  | inlineKind
  | blockKind
deriving DecidableEq

/-- Modelled from the spec: `PluginInvocation` (spec section 3): kind,
identifier name, ordered argument sequence, optional content. -/
structure PluginInvocation where
  kind : PluginKind
  name : String
  args : List String
  content : Option String
deriving DecidableEq

/-- Modelled from the spec: identifier characters for plugin names
(letters, digits, limited punctuation, no whitespace - spec section 3). -/
def isNameChar (c : Char) : Bool :=
  c.isAlphanum || c = '-' || c = '_'

/-- ASCII blank characters used to trim arguments. -/
def isBlankChar (c : Char) : Bool :=
  c = ' ' || c = '\t'

/-- Trim surrounding blanks from a character list. -/
def trimChars (l : List Char) : List Char :=
  ((l.dropWhile isBlankChar).reverse.dropWhile isBlankChar).reverse

/-- Split a character list on a separator character. -/
def splitOnCharAux (sep : Char) : List Char → List Char → List (List Char)
  | acc, [] => [acc.reverse]
  | acc, c :: r =>
    if c = sep then acc.reverse :: splitOnCharAux sep [] r
    else splitOnCharAux sep (c :: acc) r

/-- Modelled from the spec: `ArgList := Arg (Comma Arg)*`, each argument
trimmed of surrounding whitespace; an empty parenthesis pair yields the
empty argument sequence (spec sections 4.3 and 8, the `@toc()`
example). -/
def parseArgList (inner : List Char) : List String :=
  if (trimChars inner).isEmpty then []
  else (splitOnCharAux ',' [] inner).map (fun a => String.mk (trimChars a))

/-- Modelled from the spec: read an argument list after an opening
parenthesis, up to the closing parenthesis; no closing parenthesis means
no match. -/
def readArgs (cs : List Char) : Option (List String × List Char) :=
  if cs.contains ')' then
    some (parseArgList (cs.takeWhile (· ≠ ')')),
          (cs.dropWhile (· ≠ ')')).drop 1)
  else none

/-- Modelled from the spec: scan block content after the opening double
brace, tracking nested single-brace depth; only a double closing brace
at depth zero terminates, and an unterminated or unbalanced region is no
match (spec section 4.3). -/
def scanContent : Nat → List Char → Option (List Char × List Char)
  | _, [] => none
  | d, '{' :: r => (scanContent (d + 1) r).map (fun p => ('{' :: p.1, p.2))
  | 0, '}' :: r =>
    match r with
    | '}' :: r2 => some ([], r2)
    | _ => none
  | d + 1, '}' :: r => (scanContent d r).map (fun p => ('}' :: p.1, p.2))
  | d, c :: r => (scanContent d r).map (fun p => (c :: p.1, p.2))

/-- Modelled from the spec: scan inline content after the opening brace,
up to the first unescaped closing brace; a backslash escapes the
following character (spec section 4.3). -/
def scanInlineContent : List Char → Option (List Char × List Char)
  | [] => none
  | '\\' :: c :: r => (scanInlineContent r).map (fun p => ('\\' :: c :: p.1, p.2))
  | '}' :: r => some ([], r)
  | c :: r => (scanInlineContent r).map (fun p => (c :: p.1, p.2))

/-- Modelled from the spec: the block-invocation matcher
(spec section 4.3), applied to the characters after an `@`:
`Name '(' ArgList? ')' ( DoubleBrace Content DoubleBrace )?`.
Parentheses are mandatory even when empty; a bare name with no
following `(` is never a candidate.  Returns the invocation and the
remaining input, or none. -/
def match_block (cs : List Char) : Option (PluginInvocation × List Char) :=
  let name := cs.takeWhile isNameChar
  let rest := cs.dropWhile isNameChar
  if name.isEmpty then none
  else
    match rest with
    | '(' :: r1 =>
      match readArgs r1 with
      | none => none
      | some (args, r2) =>
        match r2 with
        | '{' :: '{' :: r3 =>
          match scanContent 0 r3 with
          | none => none
          | some (content, r4) =>
            some ({ kind := PluginKind.blockKind, name := String.mk name,
                    args := args, content := some (String.mk content) }, r4)
        | _ =>
          some ({ kind := PluginKind.blockKind, name := String.mk name,
                  args := args, content := none }, r2)
    | _ => none

/-- Modelled from the spec: the inline-invocation matcher
(spec section 4.3), applied to the characters after an `&`:
`Name Args? ( Brace Content Brace )? Semicolon`; the trailing semicolon
is mandatory, a missing argument list is a bare name, and absent content
means self-closing. -/
def match_inline (cs : List Char) : Option (PluginInvocation × List Char) :=
  let name := cs.takeWhile isNameChar
  let rest := cs.dropWhile isNameChar
  if name.isEmpty then none
  else
    let argsStep : Option (List String × List Char) :=
      match rest with
      | '(' :: r1 => readArgs r1
      | _ => some ([], rest)
    match argsStep with
    | none => none
    | some (args, r2) =>
      match r2 with
      | '{' :: r3 =>
        match scanInlineContent r3 with
        | none => none
        | some (content, r4) =>
          match r4 with
          | ';' :: r5 =>
            some ({ kind := PluginKind.inlineKind, name := String.mk name,
                    args := args, content := some (String.mk content) }, r5)
          | _ => none
      | ';' :: r5 =>
        some ({ kind := PluginKind.inlineKind, name := String.mk name,
                args := args, content := none }, r5)
      | _ => none

/-- Modelled from the spec: a conflict token built from a counter and a
control-character guard that sanitized text never contains
(spec sections 3 and 7). -/
def tokenChars (n : Nat) : List Char :=
  '\x01' :: Nat.toDigits 10 n ++ ['\x01']

/-- Modelled from the spec: the encoder loop (spec section 4.4).  It
drives the matchers across the document; every match is replaced by a
fresh token and recorded in the call-scoped table, and a non-match
leaves the character as literal text, the scan advancing exactly one
character.  The fuel argument bounds the recursion; `encode` supplies
enough fuel that it never runs out. -/
def encodeLoop : Nat → Nat → List (Nat × PluginInvocation) → List Char →
    List Char × List (Nat × PluginInvocation)
  | 0, _, tbl, cs => (cs, tbl)
  | _ + 1, _, tbl, [] => ([], tbl)
  | fuel + 1, n, tbl, '@' :: rest =>
    match match_block rest with
    | some (inv, rem) =>
      let p := encodeLoop fuel (n + 1) (tbl ++ [(n, inv)]) rem
      (tokenChars n ++ p.1, p.2)
    | none =>
      let p := encodeLoop fuel n tbl rest
      ('@' :: p.1, p.2)
  | fuel + 1, n, tbl, '&' :: rest =>
    match match_inline rest with
    | some (inv, rem) =>
      let p := encodeLoop fuel (n + 1) (tbl ++ [(n, inv)]) rem
      (tokenChars n ++ p.1, p.2)
    | none =>
      let p := encodeLoop fuel n tbl rest
      ('&' :: p.1, p.2)
  | fuel + 1, n, tbl, c :: rest =>
    let p := encodeLoop fuel n tbl rest
    (c :: p.1, p.2)

/-- Modelled from the spec: the conflict-resolving encoder
(spec section 4.4), returning the token-bearing text and the
call-scoped invocation table. -/
def encode (cs : List Char) : List Char × List (Nat × PluginInvocation) :=
  encodeLoop (cs.length + 1) 0 [] cs

/-- Modelled from the spec: serialize one argument for the single-quoted
`data-args` attribute: JSON string escaping for double quote and
backslash, with single quote and ampersand escaped for attribute safety
(spec section 4.5). -/
def encodeArgChar (c : Char) : List Char :=
  if c = '"' then ['\\', '"']
  else if c = '\\' then ['\\', '\\']
  else if c = Char.ofNat 39 then "&#39;".data
  else if c = '&' then "&amp;".data
  else [c]

/-- Modelled from the spec: the argument sequence as a JSON array of
strings (spec section 4.5). -/
def jsonArgs (args : List String) : List Char :=
  '[' :: (List.intercalate [',']
    (args.map (fun a => '"' :: a.data.flatMap encodeArgChar ++ ['"']))) ++ [']']

/-- Modelled from the spec: the emitted HTML shape for one invocation
(spec section 4.5): a span (inline) or div (block) with a
`plugin-`-prefixed class and the serialized arguments, self-closing
without content, and with the content receiving its single sanitizer
pass at this stage. -/
def renderInvocation (inv : PluginInvocation) : List Char :=
  let tag : String :=
    match inv.kind with
    | PluginKind.inlineKind => "span"
    | PluginKind.blockKind => "div"
  let attrs : List Char :=
    '<' :: tag.data ++ " class=\"plugin-".data ++ inv.name.data ++
      "\" data-args=".data ++ [Char.ofNat 39] ++ jsonArgs inv.args ++ [Char.ofNat 39]
  match inv.content with
  | some c => attrs ++ ['>'] ++ (sanitize_str c).data ++ "</".data ++ tag.data ++ ['>']
  | none => attrs ++ " />".data

/-- Replace every occurrence of `pat` (non-empty) by `repl`, by fuel. -/
def replaceAllLoop (pat repl : List Char) : Nat → List Char → List Char
  | 0, s => s
  | _ + 1, [] => []
  | fuel + 1, c :: rest =>
    if listStartsWith pat (c :: rest) && !pat.isEmpty then
      repl ++ replaceAllLoop pat repl fuel ((c :: rest).drop pat.length)
    else c :: replaceAllLoop pat repl fuel rest

/-- Replace every occurrence of `pat` by `repl` in `s`. -/
def replaceAll (s pat repl : List Char) : List Char :=
  replaceAllLoop pat repl (s.length + 1) s

/-- Modelled from the spec: the decoder (spec section 4.5): substitute
every known token in the rendered HTML by its rendered fragment; with no
tokens present the output passes through unchanged. -/
def decode (tbl : List (Nat × PluginInvocation)) (s : List Char) : List Char :=
  tbl.foldl (fun acc p => replaceAll acc (tokenChars p.1) (renderInvocation p.2)) s

/-- Modelled from the spec: frontmatter extraction (spec sections 2 and
6): a leading delimited header block of key-value lines yields the
mapping and the remaining body; an absent or malformed header yields no
mapping and the whole input as body.  The concrete delimiter follows the
triple-dash example in the src/src/lib.rs doc comment. -/
def parseFmLine (l : List Char) : Option (String × String) :=
  if l.contains ':' then
    some (String.mk (trimChars (l.takeWhile (· ≠ ':'))),
          String.mk (trimChars ((l.dropWhile (· ≠ ':')).drop 1)))
  else none

/-- Modelled from the spec: see `parseFmLine`. -/
def extract_frontmatter (input : List Char) : Option Frontmatter × List Char :=
  match splitOnCharAux '\n' [] input with
  | [] => (none, input)
  | first :: restLines =>
    if first = ['-', '-', '-'] then
      match restLines.findIdx? (fun l => l == ['-', '-', '-']) with
      | some i =>
        (some ⟨(restLines.take i).filterMap parseFmLine⟩,
         List.intercalate ['\n'] (restLines.drop (i + 1)))
      | none => (none, input)
    else (none, input)

/-- Modelled from the spec: the orchestrated pipeline with the
spec-modelled collaborators and an abstract external renderer
(spec section 4.6): extract frontmatter, encode the body, sanitize the
token-bearing body, render externally, decode, and pair the result with
the frontmatter. -/
def parse_model (render : List Char → List Char) (input : List Char) :
    List Char × Option Frontmatter :=
  let fm := extract_frontmatter input
  let enc := encode fm.2
  let sanitized := sanitize enc.1
  let rendered := render sanitized
  (decode enc.2 rendered, fm.1)

end Model

end LukiWikiRs


namespace LukiWikiRs

theorem sanitizeLoop_cons_lt (l : List Char) :
    sanitizeLoop ('<' :: l) = '&' :: 'l' :: 't' :: ';' :: sanitizeLoop l := rfl

theorem sanitizeLoop_cons_gt (l : List Char) :
    sanitizeLoop ('>' :: l) = '&' :: 'g' :: 't' :: ';' :: sanitizeLoop l := rfl

theorem is_html_entity_lt (X : List Char) : is_html_entity ('l' :: 't' :: ';' :: X) = true := rfl

theorem is_html_entity_gt (X : List Char) : is_html_entity ('g' :: 't' :: ';' :: X) = true := rfl

theorem is_html_entity_amp (X : List Char) :
    is_html_entity ('a' :: 'm' :: 'p' :: ';' :: X) = true := rfl

theorem sanitizeLoop_amp_kept {l : List Char} (h : is_html_entity l = true) :
    sanitizeLoop ('&' :: l) = '&' :: sanitizeLoop l := by
  simp [sanitizeLoop, h]

theorem sanitizeLoop_amp_escaped {l : List Char} (h : is_html_entity l = false) :
    sanitizeLoop ('&' :: l) = '&' :: 'a' :: 'm' :: 'p' :: ';' :: sanitizeLoop l := by
  simp [sanitizeLoop, h]

theorem plainChar_spec {c : Char} (h : plainChar c = true) :
    c ≠ '<' ∧ c ≠ '>' ∧ c ≠ '&' := by
  simp only [plainChar, Bool.not_eq_true', Bool.or_eq_false_iff, beq_eq_false_iff_ne] at h
  exact ⟨h.1.1, h.1.2, h.2⟩

theorem plainChar_of_ne {c : Char} (h1 : c ≠ '<') (h2 : c ≠ '>') (h3 : c ≠ '&') :
    plainChar c = true := by
  simp [plainChar, h1, h2, h3]

theorem sanitizeLoop_cons_plain {c : Char} (h : plainChar c = true) (l : List Char) :
    sanitizeLoop (c :: l) = c :: sanitizeLoop l := by
  obtain ⟨h1, h2, h3⟩ := plainChar_spec h
  simp [sanitizeLoop, h1, h2, h3]

theorem sanitizeLoop_append_plain {l : List Char} (h : l.all plainChar = true) (m : List Char) :
    sanitizeLoop (l ++ m) = l ++ sanitizeLoop m := by
  induction l with
  | nil => rfl
  | cons c t ih =>
    simp only [List.all_cons, Bool.and_eq_true] at h
    rw [List.cons_append, sanitizeLoop_cons_plain h.1, ih h.2, List.cons_append]

theorem charImage_plain {c : Char} (h : plainChar c = true) (rest : List Char) :
    charImage c rest = [c] := by
  obtain ⟨h1, h2, h3⟩ := plainChar_spec h
  simp [charImage, h1, h2, h3]

theorem sanitizeLoop_eq_specSanitize (s : List Char) : sanitizeLoop s = specSanitize s := by
  induction s with
  | nil => rfl
  | cons c rest ih =>
    by_cases h1 : c = '<'
    · subst h1; simp [sanitizeLoop, specSanitize, charImage, ih]
    · by_cases h2 : c = '>'
      · subst h2; simp [sanitizeLoop, specSanitize, charImage, ih]
      · by_cases h3 : c = '&'
        · subst h3
          by_cases he : is_html_entity rest = true
          · simp [sanitizeLoop, specSanitize, charImage, he, ih]
          · simp only [Bool.not_eq_true] at he
            simp [sanitizeLoop, specSanitize, charImage, he, ih]
        · simp [sanitizeLoop, specSanitize, charImage, h1, h2, h3, ih]

theorem specSanitize_append (a b : List Char) :
    specSanitize (a ++ b) = specSanitizeAux a b ++ specSanitize b := by
  induction a with
  | nil => rfl
  | cons c t ih =>
    simp only [List.cons_append, specSanitize, specSanitizeAux, List.append_eq]
    rw [ih, List.append_assoc]

end LukiWikiRs

namespace LukiWikiRs

theorem entityChar_plain {c : Char} (h : entityChar c = true) : plainChar c = true := by
  by_cases h1 : c = '<'
  · subst h1; exact absurd h (by decide)
  · by_cases h2 : c = '>'
    · subst h2; exact absurd h (by decide)
    · by_cases h3 : c = '&'
      · subst h3; exact absurd h (by decide)
      · exact plainChar_of_ne h1 h2 h3

theorem entityChar_ne_semi {c : Char} (h : entityChar c = true) : c ≠ ';' := by
  intro e; subst e; exact absurd h (by decide)

theorem digit_entityChar {c : Char} (h : c.isDigit = true) : entityChar c = true := by
  simp [entityChar, Char.isAlphanum, h]

theorem hexDigit_entityChar {c : Char} (h : isAsciiHexDigit c = true) : entityChar c = true := by
  simp only [isAsciiHexDigit, Bool.or_eq_true, Bool.and_eq_true, decide_eq_true_eq] at h
  rcases h with (h | ⟨h1, h2⟩) | ⟨h1, h2⟩
  · exact digit_entityChar h
  · have hlow : c.isLower = true := by
      simp only [Char.isLower, Bool.and_eq_true, decide_eq_true_eq]
      exact ⟨h1, le_trans h2 (show ('f' : Char) ≤ 'z' by decide)⟩
    simp [entityChar, Char.isAlphanum, Char.isAlpha, hlow]
  · have hup : c.isUpper = true := by
      simp only [Char.isUpper, Bool.and_eq_true, decide_eq_true_eq]
      exact ⟨h1, le_trans h2 (show ('F' : Char) ≤ 'Z' by decide)⟩
    simp [entityChar, Char.isAlphanum, Char.isAlpha, hup]

theorem entityScan_no_semi {rest : List Char} (h : ¬ ';' ∈ rest) :
    ∀ acc, entityScan acc rest = false := by
  induction rest with
  | nil => intro acc; rfl
  | cons c r ih =>
    intro acc
    have hc : c ≠ ';' := by intro e; exact h (by simp [e])
    have hr : ¬ ';' ∈ r := fun m => h (List.mem_cons_of_mem _ m)
    simp only [entityScan]
    rw [if_neg hc]
    by_cases hl : 10 < acc.length
    · rw [if_pos hl]
    · rw [if_neg hl]
      by_cases he : entityChar c = true
      · rw [if_pos he]; exact ih hr (c :: acc)
      · rw [if_neg he]

theorem entityScan_long :
    ∀ (rest acc : List Char), acc.length ≤ 11 →
      11 < acc.length + (rest.takeWhile (· ≠ ';')).length →
      entityScan acc rest = false := by
  intro rest
  induction rest with
  | nil => intro acc _ _; rfl
  | cons c r ih =>
    intro acc hacc hlen
    by_cases hc : c = ';'
    · subst hc
      simp [List.takeWhile_cons] at hlen
      omega
    · rw [List.takeWhile_cons, if_pos (by simp [hc])] at hlen
      simp only [List.length_cons] at hlen
      simp only [entityScan]
      rw [if_neg hc]
      by_cases hl : 10 < acc.length
      · rw [if_pos hl]
      · rw [if_neg hl]
        by_cases he : entityChar c = true
        · rw [if_pos he]
          exact ih (c :: acc) (by simp only [List.length_cons]; omega)
            (by simp only [List.length_cons]; omega)
        · rw [if_neg he]

theorem entityScan_badchar :
    ∀ (rest acc : List Char),
      (∃ c ∈ rest.takeWhile (· ≠ ';'), entityChar c = false) →
      entityScan acc rest = false := by
  intro rest
  induction rest with
  | nil => intro acc _; rfl
  | cons c r ih =>
    intro acc hbad
    by_cases hc : c = ';'
    · subst hc
      simp [List.takeWhile_cons] at hbad
    · rw [List.takeWhile_cons, if_pos (by simp [hc])] at hbad
      simp only [entityScan]
      rw [if_neg hc]
      by_cases hl : 10 < acc.length
      · rw [if_pos hl]
      · rw [if_neg hl]
        by_cases he : entityChar c = true
        · rw [if_pos he]
          apply ih (c :: acc)
          rcases hbad with ⟨d, hd, hdbad⟩
          rcases List.mem_cons.mp hd with rfl | hd2
          · exact absurd he (by simp [hdbad])
          · exact ⟨d, hd2, hdbad⟩
        · rw [if_neg he]

theorem entityScan_true_inv :
    ∀ (rest acc : List Char), entityScan acc rest = true →
      ∃ body tail, rest = body ++ ';' :: tail ∧ body.all entityChar = true ∧
        ∀ tail', entityScan acc (body ++ ';' :: tail') = true := by
  intro rest
  induction rest with
  | nil => intro acc h; exact absurd h (by simp [entityScan])
  | cons c r ih =>
    intro acc h
    by_cases hc : c = ';'
    · subst hc
      refine ⟨[], r, rfl, rfl, fun tail' => ?_⟩
      simpa [entityScan] using h
    · simp only [entityScan] at h
      rw [if_neg hc] at h
      by_cases hl : 10 < acc.length
      · rw [if_pos hl] at h; exact absurd h (by simp)
      · rw [if_neg hl] at h
        by_cases he : entityChar c = true
        · rw [if_pos he] at h
          obtain ⟨body, tail, hrest, hall, hscan⟩ := ih (c :: acc) h
          refine ⟨c :: body, tail, by rw [hrest]; rfl, ?_, fun tail' => ?_⟩
          · simp [List.all_cons, he, hall]
          · simp only [entityScan, List.cons_append]
            rw [if_neg hc, if_neg hl, if_pos he]
            exact hscan tail'
        · rw [if_neg he] at h; exact absurd h (by simp)

theorem entityScan_of_valid :
    ∀ (body acc tail : List Char), body.all entityChar = true →
      acc.length + body.length ≤ 11 →
      entityScan acc (body ++ ';' :: tail) = is_valid_entity (acc.reverse ++ body) := by
  intro body
  induction body with
  | nil =>
    intro acc tail _ _
    simp [entityScan]
  | cons c b ih =>
    intro acc tail hall hlen
    simp only [List.all_cons, Bool.and_eq_true] at hall
    have hc : c ≠ ';' := entityChar_ne_semi hall.1
    simp only [List.length_cons] at hlen
    have hl : ¬ (10 < acc.length) := by omega
    simp only [List.cons_append, entityScan, List.append_eq]
    rw [if_neg hc, if_neg hl, if_pos hall.1]
    rw [ih (c :: acc) tail hall.2 (by simp only [List.length_cons]; omega)]
    simp [List.reverse_cons, List.append_assoc]

end LukiWikiRs

namespace LukiWikiRs

theorem sanitizeLoop_lt_chunk (X : List Char) :
    sanitizeLoop ('&' :: 'l' :: 't' :: ';' :: X) = '&' :: 'l' :: 't' :: ';' :: sanitizeLoop X := by
  rw [sanitizeLoop_amp_kept (is_html_entity_lt X)]
  rw [sanitizeLoop_cons_plain (by decide), sanitizeLoop_cons_plain (by decide),
      sanitizeLoop_cons_plain (by decide)]

theorem sanitizeLoop_gt_chunk (X : List Char) :
    sanitizeLoop ('&' :: 'g' :: 't' :: ';' :: X) = '&' :: 'g' :: 't' :: ';' :: sanitizeLoop X := by
  rw [sanitizeLoop_amp_kept (is_html_entity_gt X)]
  rw [sanitizeLoop_cons_plain (by decide), sanitizeLoop_cons_plain (by decide),
      sanitizeLoop_cons_plain (by decide)]

theorem sanitizeLoop_amp_chunk (X : List Char) :
    sanitizeLoop ('&' :: 'a' :: 'm' :: 'p' :: ';' :: X) =
      '&' :: 'a' :: 'm' :: 'p' :: ';' :: sanitizeLoop X := by
  rw [sanitizeLoop_amp_kept (is_html_entity_amp X)]
  rw [sanitizeLoop_cons_plain (by decide), sanitizeLoop_cons_plain (by decide),
      sanitizeLoop_cons_plain (by decide), sanitizeLoop_cons_plain (by decide)]

theorem all_plain_of_all_entityChar {l : List Char} (h : l.all entityChar = true) :
    l.all plainChar = true := by
  simp only [List.all_eq_true] at h ⊢
  exact fun c hc => entityChar_plain (h c hc)

theorem sanitizeLoop_idem (s : List Char) :
    sanitizeLoop (sanitizeLoop s) = sanitizeLoop s := by
  induction s with
  | nil => rfl
  | cons c rest ih =>
    by_cases h1 : c = '<'
    · subst h1
      rw [sanitizeLoop_cons_lt, sanitizeLoop_lt_chunk, ih]
    · by_cases h2 : c = '>'
      · subst h2
        rw [sanitizeLoop_cons_gt, sanitizeLoop_gt_chunk, ih]
      · by_cases h3 : c = '&'
        · subst h3
          by_cases he : is_html_entity rest = true
          · obtain ⟨body, tail, hrest, hall, hscan⟩ := entityScan_true_inv rest [] he
            have hplain := all_plain_of_all_entityChar hall
            have hsl : sanitizeLoop rest = body ++ ';' :: sanitizeLoop tail := by
              rw [hrest, sanitizeLoop_append_plain hplain,
                  sanitizeLoop_cons_plain (by decide)]
            have he2 : is_html_entity (sanitizeLoop rest) = true := by
              rw [hsl]; exact hscan (sanitizeLoop tail)
            rw [sanitizeLoop_amp_kept he, sanitizeLoop_amp_kept he2, ih]
          · have he' : is_html_entity rest = false := by
              simpa using he
            rw [sanitizeLoop_amp_escaped he', sanitizeLoop_amp_chunk, ih]
        · have hp : plainChar c = true := plainChar_of_ne h1 h2 h3
          rw [sanitizeLoop_cons_plain hp, sanitizeLoop_cons_plain hp, ih]

theorem sanitizeLoop_no_angle (s : List Char) :
    ¬ '<' ∈ sanitizeLoop s ∧ ¬ '>' ∈ sanitizeLoop s := by
  induction s with
  | nil => simp [sanitizeLoop]
  | cons c rest ih =>
    by_cases h1 : c = '<'
    · subst h1
      rw [sanitizeLoop_cons_lt]
      refine ⟨?_, ?_⟩ <;> simp [ih.1, ih.2]
    · by_cases h2 : c = '>'
      · subst h2
        rw [sanitizeLoop_cons_gt]
        refine ⟨?_, ?_⟩ <;> simp [ih.1, ih.2]
      · by_cases h3 : c = '&'
        · subst h3
          by_cases he : is_html_entity rest = true
          · rw [sanitizeLoop_amp_kept he]
            refine ⟨?_, ?_⟩ <;> simp [ih.1, ih.2]
          · rw [sanitizeLoop_amp_escaped (by simpa using he)]
            refine ⟨?_, ?_⟩ <;> simp [ih.1, ih.2]
        · rw [sanitizeLoop_cons_plain (plainChar_of_ne h1 h2 h3)]
          refine ⟨?_, ?_⟩ <;> simp [ih.1, ih.2, Ne.symm h1, Ne.symm h2]

theorem mem_of_contains_true {l : List Char} {a : Char} (h : l.contains a = true) : a ∈ l :=
  List.elem_iff.mp h

theorem contains_true_of_mem {l : List Char} {a : Char} (h : a ∈ l) : l.contains a = true :=
  List.elem_iff.mpr h

theorem all_plain_of_no_specials {s : List Char}
    (h : (s.contains '<' || s.contains '>' || s.contains '&') = false) :
    s.all plainChar = true := by
  simp only [Bool.or_eq_false_iff] at h
  obtain ⟨⟨hlt, hgt⟩, hamp⟩ := h
  simp only [List.all_eq_true]
  intro c hc
  apply plainChar_of_ne
  · intro e; subst e; exact Bool.false_ne_true (hlt ▸ contains_true_of_mem hc)
  · intro e; subst e; exact Bool.false_ne_true (hgt ▸ contains_true_of_mem hc)
  · intro e; subst e; exact Bool.false_ne_true (hamp ▸ contains_true_of_mem hc)

theorem specSanitize_plain {l : List Char} (h : l.all plainChar = true) :
    specSanitize l = l := by
  induction l with
  | nil => rfl
  | cons c t ih =>
    simp only [List.all_cons, Bool.and_eq_true] at h
    simp only [specSanitize, charImage_plain h.1, ih h.2, List.cons_append, List.nil_append]

theorem sanitize_eq_specSanitize (s : List Char) : sanitize s = specSanitize s := by
  by_cases h : (s.contains '<' || s.contains '>' || s.contains '&') = true
  · rw [sanitize, if_pos h, sanitizeLoop_eq_specSanitize]
  · have h' : (s.contains '<' || s.contains '>' || s.contains '&') = false := by
      revert h; cases s.contains '<' || s.contains '>' || s.contains '&' <;> simp
    rw [sanitize, if_neg h, specSanitize_plain (all_plain_of_no_specials h')]

end LukiWikiRs

namespace LukiWikiRs

/-- C1: every `<` and `>` in the input is replaced by its escape, so the
output of `sanitize` contains no raw `<` or `>` character; in particular
the script example is fully escaped, with no unescaped script tag left. -/
theorem sanitize_output_has_no_raw_angle :
    (∀ s : List Char, ¬ '<' ∈ sanitize s ∧ ¬ '>' ∈ sanitize s) ∧
    sanitize ("<script>alert(1)</script>".data) =
      "&lt;script&gt;alert(1)&lt;/script&gt;".data := by
  refine ⟨fun s => ?_, by decide⟩
  by_cases h : (s.contains '<' || s.contains '>' || s.contains '&') = true
  · rw [sanitize, if_pos h]
    exact sanitizeLoop_no_angle s
  · have h' : (s.contains '<' || s.contains '>' || s.contains '&') = false := by
      revert h; cases s.contains '<' || s.contains '>' || s.contains '&' <;> simp
    rw [sanitize, if_neg h]
    simp only [Bool.or_eq_false_iff] at h'
    constructor
    · intro hc; exact Bool.false_ne_true (h'.1.1 ▸ contains_true_of_mem hc)
    · intro hc; exact Bool.false_ne_true (h'.1.2 ▸ contains_true_of_mem hc)

/-- C2 counterexample: the claim says a candidate whose entity body
exceeds 10 characters gets its leading `&` escaped, but the body
`#x123456789` has 11 characters and `sanitize` keeps its `&` as-is (the
length check runs before each push, so bodies of up to 11 characters can
be accepted). -/
theorem entity_length_bound_counterexample :
    sanitize ("&#x123456789;".data) = "&#x123456789;".data ∧
    sanitize ("&#x123456789;".data) ≠ "&amp;#x123456789;".data ∧
    10 < ("#x123456789".data).length := by decide

/-- C2 (amended): for a candidate whose body exceeds 11 characters, or
contains a character outside ASCII alphanumeric plus hash, `x`, `X`, or
does not terminate in `;` within the lookahead window, `sanitize`
escapes the leading `&` to its `amp` escape, processing the prefix and
the following characters as usual. -/
theorem amp_escaped_for_malformed_candidate (pre rest : List Char) (h : badCandidate rest) :
    sanitize (pre ++ '&' :: rest) =
      specSanitizeAux pre ('&' :: rest) ++ "&amp;".data ++ specSanitize rest := by
  have hfalse : is_html_entity rest = false := by
    rcases h with h | h | h
    · exact entityScan_no_semi h []
    · exact entityScan_long rest [] (by simp) (by simpa using h)
    · rcases h with ⟨c, hc, hbad⟩
      exact entityScan_badchar rest [] ⟨c, hc, hbad⟩
  rw [sanitize_eq_specSanitize, specSanitize_append, List.append_assoc]
  congr 1
  simp [specSanitize, charImage, hfalse]

theorem amp_escaped_for_malformed_candidate_witness :
    sanitize (("a".data) ++ '&' :: ("!x".data)) =
      specSanitizeAux ("a".data) ('&' :: "!x".data) ++ "&amp;".data ++
        specSanitize ("!x".data) :=
  amp_escaped_for_malformed_candidate ("a".data) ("!x".data) (Or.inl (by decide))

/-- C3: `sanitize` equals the left-to-right concatenation of
per-character images, with `<`, `>`, `&` mapped as the spec describes
and every other character copied; after a failed candidate the scan
resumes right after the `&`. -/
theorem sanitize_is_per_char_concatenation (s : List Char) :
    sanitize s = specSanitize s :=
  sanitize_eq_specSanitize s

/-- C4: every allow-listed named entity reference is preserved whole by
`sanitize`, and every in-bound decimal or hex numeric candidate keeps
its leading `&`. -/
theorem sanitize_keeps_valid_entities :
    (∀ e ∈ namedEntities, sanitize ('&' :: e.data ++ [';']) = '&' :: e.data ++ [';']) ∧
    (∀ ds tail, ds ≠ [] → ds.all Char.isDigit = true → ds.length ≤ 9 →
      sanitizeLoop ('&' :: '#' :: ds ++ ';' :: tail) =
        '&' :: sanitizeLoop ('#' :: ds ++ ';' :: tail)) ∧
    (∀ x hs tail, (x = 'x' ∨ x = 'X') → hs ≠ [] → hs.all isAsciiHexDigit = true →
      hs.length ≤ 8 →
      sanitizeLoop ('&' :: '#' :: x :: hs ++ ';' :: tail) =
        '&' :: sanitizeLoop ('#' :: x :: hs ++ ';' :: tail)) := by
  refine ⟨by decide, fun ds tail hne hdig hlen => ?_, fun x hs tail hx hne hhex hlen => ?_⟩
  · apply sanitizeLoop_amp_kept
    have hall : ('#' :: ds).all entityChar = true := by
      simp only [List.all_cons, Bool.and_eq_true]
      refine ⟨by decide, ?_⟩
      simp only [List.all_eq_true] at hdig ⊢
      exact fun c hc => digit_entityChar (hdig c hc)
    show entityScan [] (('#' :: ds) ++ ';' :: tail) = true
    rw [entityScan_of_valid ('#' :: ds) [] tail hall (by simp only [List.length_cons, List.length_nil]; omega)]
    obtain ⟨d, ds2, rfl⟩ : ∃ d ds2, ds = d :: ds2 := by
      cases ds with
      | nil => exact absurd rfl hne
      | cons d ds2 => exact ⟨d, ds2, rfl⟩
    have hd : d.isDigit = true := by
      simp only [List.all_cons, Bool.and_eq_true] at hdig
      exact hdig.1
    have hdx : ¬ (d = 'x' ∨ d = 'X') := by
      rintro (rfl | rfl) <;> exact absurd hd (by decide)
    simp only [List.reverse_nil, List.nil_append, is_valid_entity]
    rw [if_neg hdx]
    exact hdig
  · apply sanitizeLoop_amp_kept
    have hall : ('#' :: x :: hs).all entityChar = true := by
      simp only [List.all_cons, Bool.and_eq_true]
      refine ⟨by decide, ?_, ?_⟩
      · rcases hx with rfl | rfl <;> decide
      · simp only [List.all_eq_true] at hhex ⊢
        exact fun c hc => hexDigit_entityChar (hhex c hc)
    show entityScan [] (('#' :: x :: hs) ++ ';' :: tail) = true
    rw [entityScan_of_valid ('#' :: x :: hs) [] tail hall
      (by simp only [List.length_cons, List.length_nil]; omega)]
    obtain ⟨h0, hs2, rfl⟩ : ∃ h0 hs2, hs = h0 :: hs2 := by
      cases hs with
      | nil => exact absurd rfl hne
      | cons h0 hs2 => exact ⟨h0, hs2, rfl⟩
    simp only [List.reverse_nil, List.nil_append, is_valid_entity]
    rw [if_pos hx]
    exact hhex

theorem sanitize_keeps_valid_entities_witness :
    sanitize ('&' :: "nbsp".data ++ [';']) = '&' :: "nbsp".data ++ [';'] ∧
    sanitizeLoop ('&' :: '#' :: "1".data ++ ';' :: []) =
      '&' :: sanitizeLoop ('#' :: "1".data ++ ';' :: []) ∧
    sanitizeLoop ('&' :: '#' :: 'x' :: "7B".data ++ ';' :: []) =
      '&' :: sanitizeLoop ('#' :: 'x' :: "7B".data ++ ';' :: []) :=
  ⟨sanitize_keeps_valid_entities.1 "nbsp" (by decide),
   sanitize_keeps_valid_entities.2.1 ("1".data) [] (by decide) (by decide) (by decide),
   sanitize_keeps_valid_entities.2.2 'x' ("7B".data) [] (Or.inl rfl) (by decide) (by decide)
     (by decide)⟩

/-- C5: an input containing none of `<`, `>`, `&` is returned
unchanged. -/
theorem sanitize_identity_without_specials (s : List Char)
    (h : ∀ c ∈ s, c ≠ '<' ∧ c ≠ '>' ∧ c ≠ '&') : sanitize s = s := by
  have h1 : s.contains '<' = false := by
    cases hb : s.contains '<' with
    | false => rfl
    | true => exact absurd rfl (h '<' (mem_of_contains_true hb)).1
  have h2 : s.contains '>' = false := by
    cases hb : s.contains '>' with
    | false => rfl
    | true => exact absurd rfl (h '>' (mem_of_contains_true hb)).2.1
  have h3 : s.contains '&' = false := by
    cases hb : s.contains '&' with
    | false => rfl
    | true => exact absurd rfl (h '&' (mem_of_contains_true hb)).2.2
  have hb : (s.contains '<' || s.contains '>' || s.contains '&') = false := by
    rw [h1, h2, h3]; rfl
  rw [sanitize, if_neg (by rw [hb]; exact Bool.false_ne_true)]

theorem sanitize_identity_without_specials_witness :
    sanitize ("Hello World".data) = "Hello World".data :=
  sanitize_identity_without_specials ("Hello World".data) (by decide)

/-- C9: `sanitize` is idempotent - a second pass never double-escapes,
because every ampersand in the output begins a recognized entity and the
output has no raw angle brackets. -/
theorem sanitize_idempotent (s : List Char) :
    sanitize (sanitize s) = sanitize s := by
  by_cases h : (s.contains '<' || s.contains '>' || s.contains '&') = true
  · have e : sanitize s = sanitizeLoop s := by rw [sanitize, if_pos h]
    rw [e]
    by_cases h2 : ((sanitizeLoop s).contains '<' || (sanitizeLoop s).contains '>' ||
        (sanitizeLoop s).contains '&') = true
    · rw [sanitize, if_pos h2]
      exact sanitizeLoop_idem s
    · rw [sanitize, if_neg h2]
  · have e : sanitize s = s := by rw [sanitize, if_neg h]
    rw [e]; exact e

/-- C10: a lone ampersand and an empty entity body are both escaped. -/
theorem sanitize_lone_amp_and_empty_body :
    sanitize ("&".data) = "&amp;".data ∧ sanitize ("&;".data) = "&amp;;".data := by
  decide

end LukiWikiRs

namespace LukiWikiRs

/-- C6: `parse_with_frontmatter` performs exactly the fixed sequence
frontmatter extraction, conflict-resolving encoder on the body only,
sanitizer on the token-bearing output, external render, LukiWiki
post-processing, and assembles the result from the final HTML and the
extracted frontmatter - for every choice of external collaborators. -/
theorem pipeline_fixed_sequence (P : Pipeline) (input : String) :
    parse_with_frontmatter P input =
      { html := P.apply_lukiwiki_syntax (P.parse_to_html (sanitize_str
          (P.preprocess_conflicts (P.extract_frontmatter input).2))),
        frontmatter := (P.extract_frontmatter input).1 } := rfl

/-- C7: `parse` returns exactly the html field of
`parse_with_frontmatter`, discarding the frontmatter. -/
theorem parse_refines_parse_with_frontmatter (P : Pipeline) (input : String) :
    parse P input = (parse_with_frontmatter P input).html := rfl

/-- C8: an at-sign followed by a name with no opening parenthesis is
never matched as a block plugin invocation; the mention example passes
through the modelled pipeline untouched for every external renderer, and
under the identity renderer the output retains the literal mention text
and contains no plugin class. -/
theorem bare_at_name_never_plugin :
    (∀ cs : List Char, ((cs.dropWhile Model.isNameChar).head? ≠ some '(') →
      Model.match_block cs = none) ∧
    (∀ render : List Char → List Char,
      Model.parse_model render ("This is @mention without parens".data) =
        (render ("This is @mention without parens".data), none)) ∧
    containsSub ("@mention".data)
      (Model.parse_model (fun s => s) ("This is @mention without parens".data)).1 = true ∧
    containsSub ("plugin-".data)
      (Model.parse_model (fun s => s) ("This is @mention without parens".data)).1 = false := by
  refine ⟨?_, fun render => rfl, by decide, by decide⟩
  intro cs h
  unfold Model.match_block
  by_cases hname : (cs.takeWhile Model.isNameChar).isEmpty = true
  · rw [if_pos hname]
  · rw [if_neg hname]
    split
    · rename_i r1 heq
      exact absurd (by rw [heq]; rfl) h
    · rfl

theorem bare_at_name_never_plugin_witness :
    Model.match_block ("mention without parens".data) = none :=
  bare_at_name_never_plugin.1 ("mention without parens".data) (by decide)

end LukiWikiRs
